import Mathlib

/-!
Verification of the cloudflare-ingress-controller specification against its
code.  The repository ships the bootstrap binary (`cmd/argot/main.go`); the
reconciliation engine lives in internal packages referenced by the bootstrap
(`internal/argotunnel`, `internal/cloudflare`).  Functions present in the
source are embedded directly; engine components are modelled from the spec.
-/

namespace Argot

/-- An `IngressKey` is the `(namespace, name)` pair identifying one
reconcilable unit, derived from the Ingress resource identity. -/
structure IngressKey where
  ns : String
  name : String
deriving DecidableEq

/-- Modelled from the spec: the Work Queue of §4.1 (the `argotunnel`
queue of the package is not in the visible source).  It keeps a FIFO `pending`
list of keys awaiting delivery, a `dirty` set of keys known to need
reconciling, and a `processing` set of keys currently in flight. -/
structure WorkQueue where
  pending : List IngressKey
  dirty : List IngressKey
  processing : List IngressKey
deriving DecidableEq

/-- Empty Work Queue. -/
def WorkQueue.empty : WorkQueue := ⟨[], [], []⟩

/-- Modelled from the spec: `Enqueue(key)` adds a key if not already pending
or in-flight for that key (idempotent coalescing); a key enqueued while in
flight is only recorded as dirty, for redelivery after `MarkDone`. -/
def enqueue (q : WorkQueue) (k : IngressKey) : WorkQueue :=
  if k ∈ q.dirty then q
  else
    { q with
      dirty := k :: q.dirty
      pending := if k ∈ q.processing then q.pending else q.pending ++ [k] }

/-- Modelled from the spec: `Dequeue()` hands the oldest pending key to a
worker, marking it in flight and clearing its dirty mark. -/
def dequeue (q : WorkQueue) : Option (IngressKey × WorkQueue) :=
  match q.pending with
  | [] => none
  | k :: rest =>
    some (k, { pending := rest
               dirty := q.dirty.erase k
               processing := k :: q.processing })

/-- Modelled from the spec: `MarkDone(key)` releases the in-flight mark; if
the key was enqueued again while in flight (dirty), it becomes eligible for
redelivery immediately. -/
def markDone (q : WorkQueue) (k : IngressKey) : WorkQueue :=
  let q1 : WorkQueue := { q with processing := q.processing.erase k }
  if k ∈ q1.dirty then { q1 with pending := q1.pending ++ [k] } else q1

/-- An externally observable event against the Work Queue. -/
inductive QueueEvent where
  | enq (k : IngressKey)
  | deq
  | done (k : IngressKey)
deriving DecidableEq

/-- One step of the Work Queue under an event.  A `deq` on an empty queue
blocks (no state change); a `done` for a key that is not in flight is a
contract violation by the caller and has no effect. -/
def queueStep (q : WorkQueue) : QueueEvent → WorkQueue
  | .enq k => enqueue q k
  | .deq =>
    match dequeue q with
    | none => q
    | some (_, q1) => q1
  | .done k => if k ∈ q.processing then markDone q k else q

/-- State reached from the empty queue after a sequence of events. -/
def runQueue (events : List QueueEvent) : WorkQueue :=
  events.foldl queueStep WorkQueue.empty

/-- Structural invariant of the Work Queue: pending keys are distinct and
dirty, in-flight keys are distinct, and no key is both pending and in
flight. -/
structure WQInv (q : WorkQueue) : Prop where
  pendingNodup : q.pending.Nodup
  pendingDirty : ∀ k ∈ q.pending, k ∈ q.dirty
  processingNodup : q.processing.Nodup
  pendingNotProcessing : ∀ k ∈ q.pending, k ∉ q.processing

theorem wqInv_empty : WQInv WorkQueue.empty := by
  constructor <;> simp [WorkQueue.empty]

theorem wqInv_enqueue {q : WorkQueue} (h : WQInv q) (k : IngressKey) :
    WQInv (enqueue q k) := by
  unfold enqueue
  by_cases hd : k ∈ q.dirty
  · simpa [hd]
  · have hkp : k ∉ q.pending := fun hmem => hd (h.pendingDirty k hmem)
    by_cases hp : k ∈ q.processing
    · simp only [hd, if_false, hp, if_true]
      exact ⟨h.pendingNodup,
        fun j hj => List.mem_cons_of_mem _ (h.pendingDirty j hj),
        h.processingNodup, h.pendingNotProcessing⟩
    · simp only [hd, if_false, hp, if_true]
      refine ⟨?_, ?_, h.processingNodup, ?_⟩
      · simpa [List.nodup_append] using ⟨h.pendingNodup, fun hmem => hkp hmem⟩
      · intro j hj
        rcases List.mem_append.mp hj with hj1 | hj2
        · exact List.mem_cons_of_mem _ (h.pendingDirty j hj1)
        · simp only [List.mem_singleton] at hj2
          subst hj2; exact List.mem_cons_self _ _
      · intro j hj
        rcases List.mem_append.mp hj with hj1 | hj2
        · exact h.pendingNotProcessing j hj1
        · simp only [List.mem_singleton] at hj2
          subst hj2; exact hp

theorem wqInv_dequeue {q : WorkQueue} (h : WQInv q) {k : IngressKey}
    {q1 : WorkQueue} (hdq : dequeue q = some (k, q1)) : WQInv q1 := by
  unfold dequeue at hdq
  match hq : q.pending with
  | [] => rw [hq] at hdq; simp at hdq
  | khd :: rest =>
    rw [hq] at hdq
    simp only [Option.some.injEq, Prod.mk.injEq] at hdq
    obtain ⟨rfl, rfl⟩ := hdq
    have hnodup : (khd :: rest).Nodup := hq ▸ h.pendingNodup
    have hkhd_rest : khd ∉ rest := (List.nodup_cons.mp hnodup).1
    refine ⟨(List.nodup_cons.mp hnodup).2, ?_, ?_, ?_⟩
    · intro j hj
      have hjne : j ≠ khd := fun he => hkhd_rest (he ▸ hj)
      have : j ∈ q.pending := hq ▸ List.mem_cons_of_mem _ hj
      exact List.mem_erase_of_ne hjne |>.mpr (h.pendingDirty j this)
    · refine List.nodup_cons.mpr ⟨?_, h.processingNodup⟩
      exact h.pendingNotProcessing khd (hq ▸ List.mem_cons_self _ _)
    · intro j hj
      have hjne : j ≠ khd := fun he => hkhd_rest (he ▸ hj)
      have hjp : j ∈ q.pending := hq ▸ List.mem_cons_of_mem _ hj
      intro hmem
      rcases List.mem_cons.mp hmem with he | hm
      · exact hjne he
      · exact h.pendingNotProcessing j hjp hm

theorem wqInv_markDone {q : WorkQueue} (h : WQInv q) {k : IngressKey}
    (hk : k ∈ q.processing) : WQInv (markDone q k) := by
  unfold markDone
  by_cases hd : k ∈ q.dirty
  · simp only [hd, if_true]
    have hkp : k ∉ q.pending := fun hmem => h.pendingNotProcessing k hmem hk
    refine ⟨?_, ?_, h.processingNodup.erase k, ?_⟩
    · simpa [List.nodup_append] using ⟨h.pendingNodup, fun hmem => hkp hmem⟩
    · intro j hj
      rcases List.mem_append.mp hj with hj1 | hj2
      · exact h.pendingDirty j hj1
      · simp only [List.mem_singleton] at hj2; subst hj2; exact hd
    · intro j hj
      rcases List.mem_append.mp hj with hj1 | hj2
      · exact fun hmem =>
          h.pendingNotProcessing j hj1 (List.mem_of_mem_erase hmem)
      · simp only [List.mem_singleton] at hj2; subst hj2
        exact h.processingNodup.not_mem_erase
  · simp only [hd, if_false]
    exact ⟨h.pendingNodup, h.pendingDirty, h.processingNodup.erase k,
      fun j hj hmem =>
        h.pendingNotProcessing j hj (List.mem_of_mem_erase hmem)⟩

theorem wqInv_step {q : WorkQueue} (h : WQInv q) (e : QueueEvent) :
    WQInv (queueStep q e) := by
  cases e with
  | enq k => exact wqInv_enqueue h k
  | deq =>
    unfold queueStep
    match hdq : dequeue q with
    | none => simpa [hdq]
    | some (k, q1) =>
      simp only [hdq]
      exact wqInv_dequeue h hdq
  | done k =>
    unfold queueStep
    by_cases hk : k ∈ q.processing
    · simpa [hk] using wqInv_markDone h hk
    · simpa [hk]

theorem wqInv_foldl (events : List QueueEvent) :
    ∀ q : WorkQueue, WQInv q → WQInv (events.foldl queueStep q) := by
  induction events with
  | nil => exact fun q h => h
  | cons e es ih => exact fun q h => ih _ (wqInv_step h e)

theorem wqInv_run (events : List QueueEvent) : WQInv (runQueue events) :=
  wqInv_foldl events WorkQueue.empty wqInv_empty

/-- C1: for every sequence of interleaved enqueue/dequeue/mark-done events,
the Work Queue keeps at most one in-flight reconcile per key (a key is never
in the processing set twice, and `dequeue` never hands out a key already in
flight), while distinct keys may be in flight in parallel. -/
theorem workQueue_per_key_serialization (events : List QueueEvent) :
    (∀ k : IngressKey, (runQueue events).processing.count k ≤ 1) ∧
    (∀ (k : IngressKey) (q1 : WorkQueue),
      dequeue (runQueue events) = some (k, q1) →
        k ∉ (runQueue events).processing) ∧
    (∃ (es : List QueueEvent) (k1 k2 : IngressKey), k1 ≠ k2 ∧
      k1 ∈ (runQueue es).processing ∧ k2 ∈ (runQueue es).processing) := by
  have h := wqInv_run events
  refine ⟨fun k => List.nodup_iff_count_le_one.mp h.processingNodup k,
    ?_, ?_⟩
  · intro k q1 hdq
    unfold dequeue at hdq
    match hq : (runQueue events).pending with
    | [] => rw [hq] at hdq; simp at hdq
    | khd :: rest =>
      rw [hq] at hdq
      simp only [Option.some.injEq, Prod.mk.injEq] at hdq
      obtain ⟨heq, -⟩ := hdq
      subst heq
      exact h.pendingNotProcessing khd (hq ▸ List.mem_cons_self _ _)
  · refine ⟨[.enq ⟨"a", "x"⟩, .enq ⟨"b", "y"⟩, .deq, .deq],
      ⟨"a", "x"⟩, ⟨"b", "y"⟩, ?_, ?_, ?_⟩ <;> decide

/-- C1 witness: the serialization theorem at a concrete trace — after the
single enqueue of a key, dequeue hands out that key and it was not already
in flight. -/
theorem workQueue_per_key_serialization_witness :
    (⟨"a", "x"⟩ : IngressKey) ∉
      (runQueue [QueueEvent.enq ⟨"a", "x"⟩]).processing :=
  (workQueue_per_key_serialization [QueueEvent.enq ⟨"a", "x"⟩]).2.1
    ⟨"a", "x"⟩ ⟨[], [], [⟨"a", "x"⟩]⟩ (by decide)

/-- C6: `Enqueue(key)` is idempotent while the key is pending and not in
flight, and a key enqueued while in flight becomes eligible for redelivery
exactly once, immediately after `MarkDone(key)`. -/
theorem enqueue_idempotent_and_redelivery (q : WorkQueue) (k : IngressKey)
    (hinv : WQInv q) :
    (k ∈ q.pending → k ∉ q.processing → enqueue q k = q) ∧
    (k ∈ q.processing →
      (enqueue q k).pending.count k = 0 ∧
      (queueStep (enqueue q k) (.done k)).pending.count k = 1) := by
  constructor
  · intro hp _
    have hd : k ∈ q.dirty := hinv.pendingDirty k hp
    simp [enqueue, hd]
  · intro hproc
    have hkp : k ∉ q.pending := fun hmem =>
      hinv.pendingNotProcessing k hmem hproc
    have hcount0 : q.pending.count k = 0 := List.count_eq_zero.mpr hkp
    by_cases hd : k ∈ q.dirty
    · have he : enqueue q k = q := by simp [enqueue, hd]
      rw [he]
      refine ⟨hcount0, ?_⟩
      simp [queueStep, hproc, markDone, hd, List.count_append, hcount0]
    · have he : enqueue q k = { q with dirty := k :: q.dirty } := by
        simp [enqueue, hd, hproc]
      rw [he]
      refine ⟨hcount0, ?_⟩
      simp [queueStep, hproc, markDone, List.count_append, hcount0]

/-- C6 witness: the idempotence/redelivery theorem applied to two concrete
queues — an enqueue of an already-pending key changes nothing, and an
enqueue of an in-flight key yields exactly one redelivery after mark-done. -/
theorem enqueue_idempotent_and_redelivery_witness :
    (enqueue ⟨[⟨"a", "x"⟩], [⟨"a", "x"⟩], []⟩ ⟨"a", "x"⟩ =
      ⟨[⟨"a", "x"⟩], [⟨"a", "x"⟩], []⟩) ∧
    ((enqueue ⟨[], [], [⟨"a", "x"⟩]⟩ ⟨"a", "x"⟩).pending.count ⟨"a", "x"⟩ = 0 ∧
      (queueStep (enqueue ⟨[], [], [⟨"a", "x"⟩]⟩ ⟨"a", "x"⟩)
        (.done ⟨"a", "x"⟩)).pending.count ⟨"a", "x"⟩ = 1) :=
  ⟨(enqueue_idempotent_and_redelivery ⟨[⟨"a", "x"⟩], [⟨"a", "x"⟩], []⟩
      ⟨"a", "x"⟩ ⟨by decide, by decide, by decide, by decide⟩).1
      (by decide) (by decide),
   (enqueue_idempotent_and_redelivery ⟨[], [], [⟨"a", "x"⟩]⟩
      ⟨"a", "x"⟩ ⟨by decide, by decide, by decide, by decide⟩).2
      (by decide)⟩

/-- Modelled from the spec: the Repair Scheduler of §4.4 (the `argotunnel`
repair code is not in the visible source) computes the pre-jitter delay for
attempt k (1-indexed) as `min(baseDelay * 2^(k-1), baseDelay * 2^(steps-1))`.
Durations are modelled as rationals. -/
def backoffDelay (baseDelay : ℚ) (steps k : ℕ) : ℚ :=
  min (baseDelay * 2 ^ (k - 1)) (baseDelay * 2 ^ (steps - 1))

/-- Modelled from the spec: the final delay applies multiplicative jitter,
`computed delay * (1 + u)` with `u` drawn from
`(-jitterFraction, +jitterFraction)`. -/
def jitteredDelay (baseDelay : ℚ) (steps k : ℕ) (u : ℚ) : ℚ :=
  backoffDelay baseDelay steps k * (1 + u)

/-- C2: the Repair Scheduler delay for attempt k equals the capped
exponential `min(baseDelay * 2^(k-1), baseDelay * 2^(steps-1))` times
`(1 + u)` for the jitter draw `u`; the pre-jitter delay is non-decreasing in
k up to the step count, and the jittered delay never exceeds
`baseDelay * 2^(steps-1) * (1 + jitterFraction)`. -/
theorem repair_backoff_bounded (baseDelay jitterFraction u : ℚ)
    (steps k k1 : ℕ) (hb : 0 ≤ baseDelay) (hjf : 0 ≤ jitterFraction)
    (hk : 1 ≤ k) (hkk : k ≤ k1) (hks : k1 ≤ steps)
    (hu : |u| ≤ jitterFraction) :
    jitteredDelay baseDelay steps k u =
      min (baseDelay * 2 ^ (k - 1)) (baseDelay * 2 ^ (steps - 1)) * (1 + u) ∧
    backoffDelay baseDelay steps k ≤ backoffDelay baseDelay steps k1 ∧
    jitteredDelay baseDelay steps k u ≤
      baseDelay * 2 ^ (steps - 1) * (1 + jitterFraction) := by
  obtain ⟨hu1, hu2⟩ := abs_le.mp hu
  have hcap : (0 : ℚ) ≤ baseDelay * 2 ^ (steps - 1) :=
    mul_nonneg hb (by positivity)
  have hnn : 0 ≤ backoffDelay baseDelay steps k :=
    le_min (mul_nonneg hb (by positivity)) hcap
  have hle : backoffDelay baseDelay steps k ≤ baseDelay * 2 ^ (steps - 1) :=
    min_le_right _ _
  refine ⟨rfl, ?_, ?_⟩
  · refine min_le_min ?_ le_rfl
    exact mul_le_mul_of_nonneg_left
      (pow_le_pow_right₀ one_le_two (by omega)) hb
  · unfold jitteredDelay
    rcases le_or_lt 0 (1 + u) with hpos | hneg
    · exact mul_le_mul hle (by linarith) hpos hcap
    · nlinarith

/-- C2 witness: the backoff theorem at `baseDelay = 1`, `jitter = 1/10`,
`u = 0`, `steps = 3`, attempts 1 and 2. -/
theorem repair_backoff_bounded_witness :
    jitteredDelay 1 3 1 0 =
      min ((1 : ℚ) * 2 ^ (1 - 1)) (1 * 2 ^ (3 - 1)) * (1 + 0) ∧
    backoffDelay 1 3 1 ≤ backoffDelay 1 3 2 ∧
    jitteredDelay 1 3 1 0 ≤ 1 * 2 ^ (3 - 1) * (1 + 1 / 10) :=
  repair_backoff_bounded 1 (1 / 10) 0 3 1 2 (by norm_num) (by norm_num)
    (by norm_num) (by norm_num) (by norm_num) (by simp)

/-- Actual observed tunnel state per key, from the spec data model:
`{Absent, Connecting, Running, Repairing, Terminating, Failed}`. -/
inductive TunnelPhase where
  | absent
  | connecting
  | running
  | repairing
  | terminating
  | failed
deriving DecidableEq

/-- The `TunnelStatus` of a key together with its `RepairAttempt.count`. -/
structure TunnelStatus where
  phase : TunnelPhase
  repairCount : ℕ
deriving DecidableEq

/-- Events driving the per-key Reconciler state machine of spec §4.3. -/
inductive ReconcileEvent where
  | observeValid
  | openSuccess
  | openFailure
  | repairSuccess
  | repairFailure
  | resourceDeleted
  | teardownComplete
deriving DecidableEq

/-- Modelled from the spec: the per-key Reconciler state machine of §4.3
(the `argotunnel` reconciler is not in the visible source).  Transitions
into `running` reset the repair counter; failed open/repair attempts
increment it; exceeding the step count moves the key to `failed`. -/
def tunnelStep (steps : ℕ) (s : TunnelStatus) : ReconcileEvent → TunnelStatus
  | .observeValid =>
    if s.phase = .absent then ⟨.connecting, s.repairCount⟩ else s
  | .openSuccess => if s.phase = .connecting then ⟨.running, 0⟩ else s
  | .openFailure =>
    if s.phase = .connecting ∨ s.phase = .running then
      ⟨.repairing, s.repairCount + 1⟩
    else s
  | .repairSuccess => if s.phase = .repairing then ⟨.running, 0⟩ else s
  | .repairFailure =>
    if s.phase = .repairing then
      if steps < s.repairCount + 1 then ⟨.failed, s.repairCount + 1⟩
      else ⟨.repairing, s.repairCount + 1⟩
    else s
  | .resourceDeleted =>
    if s.phase ≠ .absent ∧ s.phase ≠ .terminating then
      ⟨.terminating, s.repairCount⟩
    else s
  | .teardownComplete => if s.phase = .terminating then ⟨.absent, 0⟩ else s

/-- Result of running a sequence of reconcile events for one key. -/
def tunnelRun (steps : ℕ) (s : TunnelStatus) (es : List ReconcileEvent) :
    TunnelStatus :=
  es.foldl (tunnelStep steps) s

/-- A phase in which the key is unhealthy: not `running` and its record
still exists (not `absent`). -/
def Unhealthy (p : TunnelPhase) : Prop := p ≠ .running ∧ p ≠ .absent

instance (p : TunnelPhase) : Decidable (Unhealthy p) := by
  unfold Unhealthy; infer_instance

theorem tunnelStep_count_mono (steps : ℕ) (s : TunnelStatus)
    (e : ReconcileEvent) (h1 : Unhealthy s.phase)
    (h2 : Unhealthy (tunnelStep steps s e).phase) :
    s.repairCount ≤ (tunnelStep steps s e).repairCount := by
  obtain ⟨hr1, ha1⟩ := h1
  cases e <;> simp only [tunnelStep] at h2 ⊢ <;> split_ifs at h2 ⊢ <;>
    first
      | omega
      | simp_all [Unhealthy]

theorem tunnelRun_count_mono (steps : ℕ) (es : List ReconcileEvent) :
    ∀ s : TunnelStatus,
      (∀ t ∈ es.scanl (tunnelStep steps) s, Unhealthy t.phase) →
      s.repairCount ≤ (tunnelRun steps s es).repairCount := by
  induction es with
  | nil => intro s _; simp [tunnelRun]
  | cons e es ih =>
    intro s h
    have hs : Unhealthy s.phase := h s (by simp [List.scanl])
    have hmem : tunnelStep steps s e ∈
        List.scanl (tunnelStep steps) (tunnelStep steps s e) es := by
      cases es <;> simp [List.scanl]
    have hs1 : Unhealthy (tunnelStep steps s e).phase := by
      refine h _ ?_
      simp only [List.scanl]
      exact List.mem_cons_of_mem _ hmem
    have htail : ∀ t ∈ List.scanl (tunnelStep steps) (tunnelStep steps s e) es,
        Unhealthy t.phase := by
      intro t ht
      refine h t ?_
      simp only [List.scanl]
      exact List.mem_cons_of_mem _ ht
    calc s.repairCount
        ≤ (tunnelStep steps s e).repairCount :=
          tunnelStep_count_mono steps s e hs hs1
      _ ≤ (tunnelRun steps (tunnelStep steps s e) es).repairCount :=
          ih _ htail
      _ = (tunnelRun steps s (e :: es)).repairCount := by
          simp [tunnelRun]

/-- C4: `RepairAttempt.count` is monotonically non-decreasing across
reconcile operations while the key remains unhealthy, and is reset to
exactly 0 on every transition of the status of the key into `running`. -/
theorem repair_count_mono_and_reset (steps : ℕ) (s : TunnelStatus)
    (es : List ReconcileEvent) :
    ((∀ t ∈ es.scanl (tunnelStep steps) s, Unhealthy t.phase) →
      s.repairCount ≤ (tunnelRun steps s es).repairCount) ∧
    (∀ e : ReconcileEvent, (tunnelStep steps s e).phase = .running →
      s.phase ≠ .running → (tunnelStep steps s e).repairCount = 0) := by
  refine ⟨tunnelRun_count_mono steps es s, ?_⟩
  intro e hrun hne
  cases e <;> simp only [tunnelStep] at hrun ⊢ <;> split_ifs at hrun ⊢ <;>
    simp_all

/-- C4 witness: the theorem at a concrete repairing key — a failed repair
attempt does not decrease the counter, and a successful repair resets it to
zero. -/
theorem repair_count_mono_and_reset_witness :
    (1 ≤ (tunnelRun 3 ⟨.repairing, 1⟩ [.repairFailure]).repairCount) ∧
    ((tunnelStep 3 ⟨.repairing, 1⟩ .repairSuccess).repairCount = 0) :=
  ⟨(repair_count_mono_and_reset 3 ⟨.repairing, 1⟩ [.repairFailure]).1
      (by decide),
   (repair_count_mono_and_reset 3 ⟨.repairing, 1⟩ []).2 .repairSuccess
      (by decide) (by decide)⟩

/-- Reference to an origin-certificate secret, `namespace/name`. -/
structure SecretRef where
  ns : String
  name : String
deriving DecidableEq

/-- A host-matching rule: an exact host or a wildcard over a domain. -/
inductive HostRule where
  | exact (host : String)
  | wildcard (domain : String)
deriving DecidableEq

/-- Does a rule match the hostname exactly? -/
def exactMatches (r : HostRule) (host : String) : Bool :=
  match r with
  | .exact h => host == h
  | .wildcard _ => false

/-- Does a rule match the hostname as a wildcard (`*.domain`)? -/
def wildcardMatches (r : HostRule) (host : String) : Bool :=
  match r with
  | .exact _ => false
  | .wildcard d => host.endsWith ("." ++ d)

/-- A `SecretGroup` maps one or more host-matching rules to an
origin-secret reference. -/
structure SecretGroup where
  rules : List HostRule
  secret : SecretRef
deriving DecidableEq

/-- Whether some rule of the group matches the host exactly. -/
def groupExact (g : SecretGroup) (host : String) : Bool :=
  g.rules.any (fun r => exactMatches r host)

/-- Whether some rule of the group matches the host as a wildcard. -/
def groupWildcard (g : SecretGroup) (host : String) : Bool :=
  g.rules.any (fun r => wildcardMatches r host)

/-- Modelled from the spec: the Secret Resolver of §4.5 (the resolver code
is not in the visible source).  Groups are scanned in configured order;
exact matches take precedence over wildcard matches; with no match the
default secret reference applies; with no default, resolution fails. -/
def resolveSecret (groups : List SecretGroup) (defaultRef : Option SecretRef)
    (host : String) : Option SecretRef :=
  match groups.find? (fun g => groupExact g host) with
  | some g => some g.secret
  | none =>
    match groups.find? (fun g => groupWildcard g host) with
    | some g => some g.secret
    | none => defaultRef

/-- Reconciler guard of §4.5: a tunnel may be opened for a host only when
secret resolution succeeds. -/
def tunnelPermitted (groups : List SecretGroup) (defaultRef : Option SecretRef)
    (host : String) : Bool :=
  (resolveSecret groups defaultRef host).isSome

/-- C3: the Secret Resolver returns the secret of the first exactly-matching
group (even when a wildcard-matching group is listed earlier), otherwise
the secret of the first wildcard-matching group, otherwise the default; with no
match and no default it fails and no tunnel is permitted for the host. -/
theorem secret_resolution_order (groups : List SecretGroup)
    (defaultRef : Option SecretRef) (host : String) :
    (∀ g, groups.find? (fun g0 => groupExact g0 host) = some g →
      resolveSecret groups defaultRef host = some g.secret) ∧
    (groups.find? (fun g0 => groupExact g0 host) = none →
      ∀ g, groups.find? (fun g0 => groupWildcard g0 host) = some g →
        resolveSecret groups defaultRef host = some g.secret) ∧
    ((∀ g ∈ groups, groupExact g host = false ∧ groupWildcard g host = false) →
      resolveSecret groups defaultRef host = defaultRef) ∧
    ((∀ g ∈ groups, groupExact g host = false ∧ groupWildcard g host = false) →
      defaultRef = none →
        resolveSecret groups defaultRef host = none ∧
        tunnelPermitted groups defaultRef host = false) := by
  have hnone : (∀ g ∈ groups,
      groupExact g host = false ∧ groupWildcard g host = false) →
      resolveSecret groups defaultRef host = defaultRef := by
    intro hall
    have h1 : groups.find? (fun g0 => groupExact g0 host) = none :=
      List.find?_eq_none.mpr (fun x hx => by simp [(hall x hx).1])
    have h2 : groups.find? (fun g0 => groupWildcard g0 host) = none :=
      List.find?_eq_none.mpr (fun x hx => by simp [(hall x hx).2])
    unfold resolveSecret
    rw [h1, h2]
  refine ⟨?_, ?_, hnone, ?_⟩
  · intro g hg
    unfold resolveSecret
    rw [hg]
  · intro h1 g hg
    unfold resolveSecret
    rw [h1, hg]
  · intro hall hdef
    subst hdef
    have hres := hnone hall
    exact ⟨hres, by simp [tunnelPermitted, hres]⟩

/-- C3 witness: with a wildcard group for `*.example.com` listed before an
exact group for `billing.example.com`, resolving `billing.example.com`
yields the secret of the exact group; and with no matching group and no default,
resolution fails and no tunnel is permitted. -/
theorem secret_resolution_order_witness :
    resolveSecret
      [⟨[.wildcard "example.com"], ⟨"tls", "wild"⟩⟩,
       ⟨[.exact "billing.example.com"], ⟨"tls", "exact"⟩⟩]
      (some ⟨"tls", "default"⟩) "billing.example.com" =
      some ⟨"tls", "exact"⟩ ∧
    (resolveSecret [⟨[.exact "other.example.com"], ⟨"tls", "o"⟩⟩]
        none "app.test" = none ∧
      tunnelPermitted [⟨[.exact "other.example.com"], ⟨"tls", "o"⟩⟩]
        none "app.test" = false) :=
  ⟨(secret_resolution_order
      [⟨[.wildcard "example.com"], ⟨"tls", "wild"⟩⟩,
       ⟨[.exact "billing.example.com"], ⟨"tls", "exact"⟩⟩]
      (some ⟨"tls", "default"⟩) "billing.example.com").1
      ⟨[.exact "billing.example.com"], ⟨"tls", "exact"⟩⟩ (by decide),
   (secret_resolution_order [⟨[.exact "other.example.com"], ⟨"tls", "o"⟩⟩]
      none "app.test").2.2.2 (by decide) rfl⟩

/-- A key/value tag attached to a tunnel. -/
structure Tag where
  key : String
  value : String
deriving DecidableEq

/-- Modelled from the spec: the Tag Builder of §4.6 derives base tags from
Ingress metadata — namespace and name first, then the controller
version. -/
def baseTags (ns name version : String) : List Tag :=
  [⟨"k8s/namespace", ns⟩, ⟨"k8s/name", name⟩, ⟨"controller/version", version⟩]

/-- Modelled from the spec: the built tag sequence (base tags before any
derived/optional tags) is truncated deterministically to the configured
limit. -/
def buildTags (ns name version : String) (extra : List Tag) (limit : ℕ) :
    List Tag :=
  (baseTags ns name version ++ extra).take limit

/-- Errors a reconcile pass can report for one host. -/
inductive ReconcileError where
  | noOriginSecret
deriving DecidableEq

/-- The target state computed from an Ingress resource for one host. -/
structure DesiredTunnelSpec where
  host : String
  secret : SecretRef
  tags : List Tag
deriving DecidableEq

/-- Modelled from the spec: building the desired spec for a host resolves
the origin secret (which can fail) and builds the bounded tag list (which
cannot). -/
def buildDesiredSpec (groups : List SecretGroup) (defaultRef : Option SecretRef)
    (host ns name version : String) (extra : List Tag) (limit : ℕ) :
    Except ReconcileError DesiredTunnelSpec :=
  match resolveSecret groups defaultRef host with
  | none => .error .noOriginSecret
  | some s => .ok ⟨host, s, buildTags ns name version extra limit⟩

/-- C5: the built tag sequence never exceeds the configured limit, an
over-long sequence is truncated to exactly the limit by stable truncation
(the result is a prefix of the untruncated sequence, with the
namespace/name tags preserved first), and truncation never makes the
reconcile fail — the desired spec is built whenever the secret resolves. -/
theorem tag_limit_truncation (ns name version : String) (extra : List Tag)
    (limit : ℕ) (groups : List SecretGroup) (defaultRef : Option SecretRef)
    (host : String) :
    (buildTags ns name version extra limit).length ≤ limit ∧
    (limit < (baseTags ns name version ++ extra).length →
      (buildTags ns name version extra limit).length = limit) ∧
    (buildTags ns name version extra limit) <+:
      (baseTags ns name version ++ extra) ∧
    (2 ≤ limit → (buildTags ns name version extra limit).take 2 =
      [⟨"k8s/namespace", ns⟩, ⟨"k8s/name", name⟩]) ∧
    (∀ s, resolveSecret groups defaultRef host = some s →
      buildDesiredSpec groups defaultRef host ns name version extra limit =
        Except.ok ⟨host, s, buildTags ns name version extra limit⟩) := by
  refine ⟨?_, ?_, ?_, ?_, ?_⟩
  · simp only [buildTags, List.length_take]
    exact min_le_left _ _
  · intro h
    simp only [buildTags, List.length_take]
    omega
  · exact ⟨(baseTags ns name version ++ extra).drop limit,
      List.take_append_drop _ _⟩
  · intro h2
    rw [buildTags, List.take_take]
    have hm : min 2 limit = 2 := by omega
    rw [hm]
    simp [baseTags]
  · intro s hs
    unfold buildDesiredSpec
    rw [hs]

/-- C5 witness: the truncation theorem at limit 2 with three base tags and
one extra tag, and a host whose secret resolves to the default. -/
theorem tag_limit_truncation_witness :
    ((buildTags "n" "a" "v" [⟨"extra", "e"⟩] 2).length = 2) ∧
    ((buildTags "n" "a" "v" [⟨"extra", "e"⟩] 2).take 2 =
      [⟨"k8s/namespace", "n"⟩, ⟨"k8s/name", "a"⟩]) ∧
    (buildDesiredSpec [] (some ⟨"tls", "d"⟩) "h" "n" "a" "v"
        [⟨"extra", "e"⟩] 2 =
      Except.ok ⟨"h", ⟨"tls", "d"⟩, buildTags "n" "a" "v" [⟨"extra", "e"⟩] 2⟩) :=
  ⟨(tag_limit_truncation "n" "a" "v" [⟨"extra", "e"⟩] 2 []
      (some ⟨"tls", "d"⟩) "h").2.1 (by decide),
   (tag_limit_truncation "n" "a" "v" [⟨"extra", "e"⟩] 2 []
      (some ⟨"tls", "d"⟩) "h").2.2.2.1 (by decide),
   (tag_limit_truncation "n" "a" "v" [⟨"extra", "e"⟩] 2 []
      (some ⟨"tls", "d"⟩) "h").2.2.2.2 ⟨"tls", "d"⟩ rfl⟩

/-- A logrus logging level, mirroring `logrus.Level`. -/
inductive LogrusLevel where
  | panic
  | fatal
  | error
  | warn
  | info
  | debug
  | trace
deriving DecidableEq

/-- Embedding of `logrus.AllLevels`: the seven levels in ascending
severity-index order. -/
def allLevels : List LogrusLevel :=
  [.panic, .fatal, .error, .warn, .info, .debug, .trace]

/-- Embedding of `logruslevel` (cmd/argot/main.go): bridges the verbose
flag into a logrus level.  The Go `logrus.AllLevels[v]` index is modelled
as an optional list access, so an out-of-range access would surface as
`none`. -/
def logruslevel (v : Int) : Option LogrusLevel :=
  if 0 ≤ v ∧ v ≤ 5 then allLevels[v.toNat]?
  else if 5 < v then some .debug
  else some .panic

/-- C8: `logruslevel` is total — it returns `PanicLevel` for negative
verbosity, the v-th entry of `logrus.AllLevels` for verbosity 0..5 (always
in bounds), and `DebugLevel` above 5; no input causes an out-of-range
access. -/
theorem logruslevel_total (v : Int) :
    (logruslevel v).isSome = true ∧
    (v < 0 → logruslevel v = some .panic) ∧
    (0 ≤ v → v ≤ 5 → v.toNat < allLevels.length ∧
      logruslevel v = allLevels[v.toNat]?) ∧
    (5 < v → logruslevel v = some .debug) := by
  by_cases hneg : v < 0
  · have hcond : ¬(0 ≤ v ∧ v ≤ 5) := by omega
    have h5 : ¬5 < v := by omega
    exact ⟨by simp [logruslevel, hcond, h5],
      fun _ => by simp [logruslevel, hcond, h5],
      fun h0 _ => absurd h0 (by omega),
      fun h5x => absurd h5x h5⟩
  · by_cases hhi : 5 < v
    · have hcond : ¬(0 ≤ v ∧ v ≤ 5) := by omega
      exact ⟨by simp [logruslevel, hcond, hhi],
        fun hv => absurd hv hneg,
        fun _ hle => absurd hle (by omega),
        fun _ => by simp [logruslevel, hcond, hhi]⟩
    · have hcond : 0 ≤ v ∧ v ≤ 5 := by omega
      have hlen : allLevels.length = 7 := by simp [allLevels]
      have hlt : v.toNat < allLevels.length := by omega
      refine ⟨?_, fun hv => absurd hv hneg,
        fun _ _ => ⟨hlt, by simp [logruslevel, hcond]⟩,
        fun h5x => absurd h5x hhi⟩
      simp [logruslevel, hcond, List.getElem?_eq_getElem hlt]

/-- C8 witness: the totality theorem at verbosity 3 — the index is in
bounds and the level is the third entry of `AllLevels`. -/
theorem logruslevel_total_witness :
    (3 : Int).toNat < allLevels.length ∧
    logruslevel 3 = allLevels[(3 : Int).toNat]? :=
  (logruslevel_total 3).2.2.1 (by norm_num) (by norm_num)

/-- Parsed origin-secrets configuration (`cloudflare.OriginSecrets`): the
ordered group list that drives the Secret Resolver. -/
structure OriginSecrets where
  groups : List SecretGroup
deriving DecidableEq

/-- Embedding of `originsecrets` (cmd/argot/main.go): with a non-empty
path the configuration file is parsed
(`cloudflare.ParseOriginSecretsFile`, an external effect passed as a
function); with an empty path an empty configuration is returned without
touching any file. -/
def originsecrets (originsecretspath : String)
    (parseFile : String → Except String OriginSecrets) :
    Except String OriginSecrets :=
  if 0 < originsecretspath.length then parseFile originsecretspath
  else .ok ⟨[]⟩

/-- C9: with an empty origin-secret-config path, `originsecrets` returns
an empty `OriginSecrets` and no error, independently of the file parser
(no file is read); only a non-empty path invokes the parser; and an empty
group list makes secret resolution fall through to the default secret
reference. -/
theorem originsecrets_empty_path
    (parseFile : String → Except String OriginSecrets)
    (defaultRef : Option SecretRef) (host : String) :
    originsecrets "" parseFile = Except.ok ⟨[]⟩ ∧
    (∀ path, 0 < path.length →
      originsecrets path parseFile = parseFile path) ∧
    resolveSecret (OriginSecrets.mk []).groups defaultRef host =
      defaultRef := by
  refine ⟨rfl, ?_, rfl⟩
  intro path h
  simp [originsecrets, h]

/-- C9 witness: the empty-path theorem with a parser that always fails —
the empty path still yields the empty configuration, while a non-empty
path propagates the result of the parser. -/
theorem originsecrets_empty_path_witness :
    originsecrets "" (fun _ => Except.error "bad") = Except.ok ⟨[]⟩ ∧
    originsecrets "cfg" (fun _ => Except.error "bad") =
      Except.error "bad" :=
  ⟨(originsecrets_empty_path (fun _ => Except.error "bad") none "h").1,
   (originsecrets_empty_path (fun _ => Except.error "bad") none "h").2.1
      "cfg" (by decide)⟩

/-- Source of the Kubernetes REST configuration chosen by `kubeclient`. -/
inductive RestConfigSource where
  | kubeconfigFile (path : String)
  | inCluster
deriving DecidableEq

/-- Embedding of the REST-configuration selection inside `kubeclient`
(cmd/argot/main.go): the kubeconfig file is used only when the path is
non-empty and `--incluster` is not set; otherwise the in-cluster
configuration is used. -/
def kubeclientConfigSource (kubeconfigpath : String) (incluster : Bool) :
    RestConfigSource :=
  if kubeconfigpath ≠ "" ∧ incluster = false then
    .kubeconfigFile kubeconfigpath
  else .inCluster

/-- C10: `kubeclient` builds from the kubeconfig file iff the path is
non-empty and `--incluster` is unset; with `--incluster` set the supplied
kubeconfig path is ignored, and an empty path also selects the in-cluster
configuration. -/
theorem kubeclient_config_selection (path : String) (b : Bool) :
    (kubeclientConfigSource path b = .kubeconfigFile path ↔
      (path ≠ "" ∧ b = false)) ∧
    kubeclientConfigSource path true = .inCluster ∧
    kubeclientConfigSource "" b = .inCluster := by
  refine ⟨⟨?_, ?_⟩, ?_, ?_⟩
  · intro h
    by_contra hc
    unfold kubeclientConfigSource at h
    rw [if_neg hc] at h
    exact absurd h (by simp)
  · intro hc
    simp [kubeclientConfigSource, hc.1, hc.2]
  · simp [kubeclientConfigSource]
  · simp [kubeclientConfigSource]

/-- C10 witness: the selection theorem at a concrete path — without
`--incluster` the kubeconfig file is used; with it, the same path is
ignored in favour of the in-cluster configuration. -/
theorem kubeclient_config_selection_witness :
    kubeclientConfigSource "kc" false = .kubeconfigFile "kc" ∧
    kubeclientConfigSource "kc" true = .inCluster :=
  ⟨(kubeclient_config_selection "kc" false).1.mpr (by decide),
   (kubeclient_config_selection "kc" false).2.1⟩

/-- Inputs and external-effect results consumed by the startup phase of
`main` (cmd/argot/main.go, `couple` command). -/
structure StartupEnv where
  debugenable : Bool
  metricsenable : Bool
  debugListen : Except String Unit
  metricsListen : Except String Unit
  kubeclientResult : Except String Unit
  originconfig : String
  parseFile : String → Except String OriginSecrets

/-- A fatal startup error: reported to the operator via `log.Fatalf` with
the underlying message, after which the process exits. -/
inductive StartupFatal where
  | debugListenFailed (msg : String)
  | metricsListenFailed (msg : String)
  | kubeclientFailed (msg : String)
  | originSecretsFailed (msg : String)
deriving DecidableEq

/-- State after successful initialization: the controller is constructed
and the run group starts; no `StartupFatal` can be produced past this
point. -/
structure EngineRunning where
  secrets : OriginSecrets
deriving DecidableEq

/-- Whether an `Except` computation succeeded. -/
def exceptOk {ε α : Type} : Except ε α → Bool
  | .ok _ => true
  | .error _ => false

/-- Embedding of the startup sequence of `main` (cmd/argot/main.go,
`couple` command), in source order: bind the debug listener if enabled,
bind the metrics listener if enabled, construct the Kubernetes client,
parse the origin-secret configuration; the first failure is fatal. -/
def startup (env : StartupEnv) : Except StartupFatal EngineRunning :=
  match (if env.debugenable then env.debugListen else .ok ()) with
  | .error m => .error (.debugListenFailed m)
  | .ok _ =>
    match (if env.metricsenable then env.metricsListen else .ok ()) with
    | .error m => .error (.metricsListenFailed m)
    | .ok _ =>
      match env.kubeclientResult with
      | .error m => .error (.kubeclientFailed m)
      | .ok _ =>
        match originsecrets env.originconfig env.parseFile with
        | .error m => .error (.originSecretsFailed m)
        | .ok s => .ok ⟨s⟩

/-- C7: startup succeeds exactly when every required initialization step
succeeds (enabled listeners bind, the Kubernetes client is constructed,
the origin-secret configuration parses); a Kubernetes-client failure or an
origin-secret parse failure is fatal, reported with its message; these
errors belong to the initialization phase only — the run phase is entered
only after all of them are ruled out. -/
theorem startup_fatal_errors (env : StartupEnv) :
    (exceptOk (startup env) = true ↔
      (env.debugenable = true → exceptOk env.debugListen = true) ∧
      (env.metricsenable = true → exceptOk env.metricsListen = true) ∧
      exceptOk env.kubeclientResult = true ∧
      exceptOk (originsecrets env.originconfig env.parseFile) = true) ∧
    (∀ m, env.kubeclientResult = .error m →
      (env.debugenable = true → exceptOk env.debugListen = true) →
      (env.metricsenable = true → exceptOk env.metricsListen = true) →
      startup env = .error (.kubeclientFailed m)) ∧
    (∀ m, env.kubeclientResult = .ok () →
      (env.debugenable = true → exceptOk env.debugListen = true) →
      (env.metricsenable = true → exceptOk env.metricsListen = true) →
      originsecrets env.originconfig env.parseFile = .error m →
      startup env = .error (.originSecretsFailed m)) := by
  obtain ⟨de, me, dl, ml, kc, oc, pf⟩ := env
  rcases hos : originsecrets oc pf with m | s <;>
    cases de <;> cases me <;>
    rcases dl with dm | du <;> rcases ml with mm | mu <;>
    rcases kc with km | ku <;>
    simp_all [startup, exceptOk]

/-- C7 witness: the startup theorem at a concrete environment whose
origin-secret configuration fails to parse — startup is fatal with the
message of the parse error. -/
theorem startup_fatal_errors_witness :
    startup ⟨false, false, Except.ok (), Except.ok (), Except.ok (), "cfg",
        fun _ => Except.error "bad"⟩ =
      Except.error (.originSecretsFailed "bad") :=
  (startup_fatal_errors ⟨false, false, Except.ok (), Except.ok (),
      Except.ok (), "cfg", fun _ => Except.error "bad"⟩).2.2 "bad" rfl
    (fun h => absurd h (by decide)) (fun h => absurd h (by decide)) rfl

end Argot
